import Mathlib

/-!
# Verification of `greedy_path`
  (src/networkx-2.4/networkx/algorithms/shortest_paths/greedy.py)

Shallow embedding of the greedy best-first path search.  The graph is an
adjacency association list from a node to its outgoing (neighbor,
edge-attribute) pairs, mirroring the networkx adjacency view that the
algorithm queries.  Nodes are `Nat`, edge weights and heuristic values are
`Int`.  The priority queue (Python `heapq` over 5-tuples) is modelled as a
list from which `popMin` extracts the entry with lexicographically smallest
(priority, counter) pair; counters are unique across a call, so this
matches the heap's tuple comparison exactly (the node itself is never
compared).  The unbounded `while` loop is run on an explicitly sufficient
amount of fuel (`searchFuel`), and fuel sufficiency is proved.
-/

/-- Edge attribute dictionary restricted to integer values: the algorithm
only reads `w.get(weight, 1)` from it. -/
abbrev Attrs := List (String × Int)

/-- A networkx-style graph as consumed by `greedy_path`: a multigraph
capability flag and the adjacency structure `node ↦ [(neighbor, attrs)]`.
Node membership (`n in G`) is membership among the adjacency keys. -/
structure Graph where
  multigraph : Bool
  adj : List (Nat × List (Nat × Attrs))
deriving DecidableEq, Repr

/-- Association-list lookup with decidable equality on `Nat` keys
(first match wins, which is how the Python dicts behave since the
algorithm never writes the same key twice except `explored[curnode]`,
whose overwrite corresponds to a fresh head entry here). -/
def alookup {β : Type} (k : Nat) : List (Nat × β) → Option β
  | [] => none
  | (a, b) :: t => if a = k then some b else alookup k t

/-- `source in G` / `target in G`: node membership. -/
def containsNode (G : Graph) (n : Nat) : Bool :=
  (alookup n G.adj).isSome

/-- `G[curnode].items()`: the adjacency of a node (empty when the node is
absent; for genuine networkx graphs every queried node is present). -/
def adjOf (G : Graph) (n : Nat) : List (Nat × Attrs) :=
  (alookup n G.adj).getD []

/-- `w.get(weight, 1)`: the edge weight under the caller's attribute key,
defaulting to 1 when the attribute is absent. -/
def edgeWeight (wkey : String) (attrs : Attrs) : Int :=
  (List.lookup wkey attrs).getD 1

/-- There is a directed edge `a → b` in `G`. -/
def hasEdge (G : Graph) (a b : Nat) : Bool :=
  (adjOf G a).any (fun p => p.1 == b)

/-- One entry of the frontier heap: the Python tuple
`(priority, counter, node, dist, parent)`. -/
structure QEntry where
  pri : Int
  cnt : Nat
  node : Nat
  dist : Int
  parent : Option Nat
deriving DecidableEq, Repr

/-- `heappop`: remove the entry with smallest (priority, counter), exactly
the tuple order used by the Python heap (counters are unique, so the
comparison never reaches the node component). -/
def popMin : List QEntry → Option (QEntry × List QEntry)
  | [] => none
  | e :: t =>
    match popMin t with
    | none => some (e, [])
    | some (m, r) =>
      if m.pri < e.pri ∨ (m.pri = e.pri ∧ m.cnt < e.cnt) then some (m, e :: r)
      else some (e, t)

/-- The mutable state of one search call: the frontier `queue`, the next
value of the counter `c`, the `enqueued` discovery ledger
`node ↦ (ncost, h)`, and the `explored` finalization ledger
`node ↦ parent`. -/
structure SState where
  queue : List QEntry
  cnt : Nat
  enqueued : List (Nat × Int × Int)
  explored : List (Nat × Option Nat)
deriving DecidableEq, Repr

/-- One iteration of the neighbor `for` loop body: compute the candidate
cost, discard the neighbor unconditionally if it is already enqueued,
otherwise record it and push a frontier entry with priority equal to the
heuristic estimate. -/
def processNbr (hfun : Nat → Nat → Int) (wkey : String) (target curnode : Nat) (dist : Int)
    (acc : List QEntry × Nat × List (Nat × Int × Int)) (nw : Nat × Attrs) :
    List QEntry × Nat × List (Nat × Int × Int) :=
  let ncost := dist + edgeWeight wkey nw.2
  match alookup nw.1 acc.2.2 with
  | some _ => acc
  | none =>
    let h := hfun nw.1 target
    (acc.1 ++ [⟨h, acc.2.1, nw.1, ncost, some curnode⟩], acc.2.1 + 1, (nw.1, ncost, h) :: acc.2.2)

/-- The whole neighbor loop `for neighbor, w in G[curnode].items()`. -/
def expand (G : Graph) (hfun : Nat → Nat → Int) (wkey : String) (target curnode : Nat)
    (dist : Int) (q : List QEntry) (c : Nat) (enq : List (Nat × Int × Int)) :
    List QEntry × Nat × List (Nat × Int × Int) :=
  (adjOf G curnode).foldl (processNbr hfun wkey target curnode dist) (q, c, enq)

/-- The path-reconstruction walk: `path = [curnode]; node = parent;
while node is not None: path.append(node); node = explored[node];
path.reverse()`.  A missing ledger entry (Python `KeyError`) or exhausted
fuel yields `none`; both are proved unreachable. -/
def walkBack (explored : List (Nat × Option Nat)) : Nat → Option Nat → List Nat → Option (List Nat)
  | _, none, path => some path.reverse
  | 0, some _, _ => none
  | fuel + 1, some n, path =>
    match alookup n explored with
    | none => none
    | some p => walkBack explored fuel p (path ++ [n])

/-- Result of one iteration of the `while queue` loop. -/
inductive StepRes where
  | success (p : Option (List Nat))
  | exhausted
  | next (s : SState)
deriving DecidableEq, Repr

/-- One iteration of the main loop: pop the smallest entry; return the
reconstructed path if it is the target; skip it when its finalized parent
is `None` (the starting node); otherwise finalize it and expand its
neighbors. -/
def step (G : Graph) (hfun : Nat → Nat → Int) (wkey : String) (target : Nat)
    (s : SState) : StepRes :=
  match popMin s.queue with
  | none => .exhausted
  | some (e, rest) =>
    if e.node = target then
      .success (walkBack s.explored (s.explored.length + 1) e.parent [e.node])
    else
      match alookup e.node s.explored with
      | some none => .next { s with queue := rest }
      | _ =>
        let t := expand G hfun wkey target e.node e.dist rest s.cnt s.enqueued
        .next ⟨t.1, t.2.1, t.2.2, (e.node, e.parent) :: s.explored⟩

/-- Outcome of the main loop. -/
inductive LoopRes where
  | path (p : List Nat)
  | exhausted
  | reconError
deriving DecidableEq, Repr

/-- The `while queue` loop, run on fuel; `none` means the fuel ran out
(proved impossible for the fuel `greedy_path` supplies). -/
def loop (G : Graph) (hfun : Nat → Nat → Int) (wkey : String) (target : Nat) :
    Nat → SState → Option LoopRes
  | 0, _ => none
  | fuel + 1, s =>
    match step G hfun wkey target s with
    | .success (some p) => some (.path p)
    | .success none => some .reconError
    | .exhausted => some .exhausted
    | .next s' => loop G hfun wkey target fuel s'

/-- Every node mentioned by the graph (adjacency keys and neighbors),
without duplicates; only nodes of this list can ever be enqueued. -/
def mentioned (G : Graph) : List Nat :=
  (G.adj.map Prod.fst ++ (G.adj.map (fun p => p.2.map Prod.fst)).flatten).dedup

/-- Enough fuel for the main loop: each iteration removes a queue entry
and each push permanently claims a fresh mentioned node. -/
def searchFuel (G : Graph) : Nat :=
  (mentioned G).length + 2

/-- `queue = [(0, next(c), source, 0, None)]` with the counter advanced
past 0, and both ledgers empty. -/
def initState (source : Nat) : SState :=
  ⟨[⟨0, 0, source, 0, none⟩], 1, [], []⟩

/-- `'Either source {} or target {} is not in G'.format(source, target)` -/
def nodeNotFoundMsg (source target : Nat) : String :=
  "Either source " ++ toString source ++ " or target " ++ toString target ++ " is not in G"

/-- `"Node %s not reachable from %s" % (target, source)` -/
def noPathMsg (source target : Nat) : String :=
  "Node " ++ toString target ++ " not reachable from " ++ toString source

/-- Overall result of a call, with each `raise` as a constructor. -/
inductive GreedyResult where
  | path (p : List Nat)
  | nodeNotFound (msg : String)
  | noPath (msg : String)
  | notImplemented (msg : String)
  | reconError
  | fuelOut
deriving DecidableEq, Repr

/-- `greedy_path(G, source, target, heuristic=None, weight='weight')`.
The body follows the source; the leading multigraph rejection is the
`@not_implemented_for('multigraph')` decorator.  Modelled from the spec:
`not_implemented_for` lives in `networkx.utils`, which is not part of the
sources; per the spec it raises UnsupportedGraphKind before any traversal
when the graph is a multigraph variant. -/
def greedy_path (G : Graph) (source target : Nat)
    (heuristic : Option (Nat → Nat → Int) := none) (weight : String := "weight") :
    GreedyResult :=
  if G.multigraph then .notImplemented "not implemented for multigraph type"
  else if !containsNode G source || !containsNode G target then
    .nodeNotFound (nodeNotFoundMsg source target)
  else
    let hfun := heuristic.getD (fun _ _ => 0)
    match loop G hfun weight target (searchFuel G) (initState source) with
    | some (.path p) => .path p
    | some .exhausted => .noPath (noPathMsg source target)
    | some .reconError => .reconError
    | none => .fuelOut

/-- The message "names" a node when the node's decimal rendering occurs as
a whitespace-separated word of the message. -/
def mentionsNode (msg : String) (n : Nat) : Prop :=
  (toString n).toList ∈ msg.toList.splitOn ' '

instance (msg : String) (n : Nat) : Decidable (mentionsNode msg n) := by
  unfold mentionsNode; infer_instance

/-- The transition relation of the main loop: one non-terminal iteration. -/
def StepNext (G : Graph) (hfun : Nat → Nat → Int) (wkey : String) (target : Nat)
    (s s' : SState) : Prop :=
  step G hfun wkey target s = .next s'

/-- States the main loop can reach from a given state. -/
def ReachableFrom (G : Graph) (hfun : Nat → Nat → Int) (wkey : String) (target : Nat)
    (s s' : SState) : Prop :=
  Relation.ReflTransGen (StepNext G hfun wkey target) s s'

-- Concrete graphs used by witnesses and counterexamples.

/-- Two nodes, one edge `0 → 1` of weight 1. -/
def G01 : Graph := ⟨false, [(0, [(1, [("weight", 1)])]), (1, [])]⟩

/-- Two isolated nodes (the no-path scenario of the spec). -/
def GAB : Graph := ⟨false, [(0, []), (1, [])]⟩

/-- A graph containing node 1 but not node 0. -/
def Gonly1 : Graph := ⟨false, [(1, [])]⟩

/-- A multigraph-kind graph. -/
def Gmulti : Graph := ⟨true, [(0, []), (1, [])]⟩

/-- `0 → 1`, `1 → 0`, `1 → 2`: expanding node 1 re-enqueues node 0, which
is later popped while already explored. -/
def Gcyc : Graph := ⟨false, [(0, [(1, [])]), (1, [(0, []), (2, [])]), (2, [])]⟩

example : greedy_path G01 0 1 = .path [0, 1] := by decide
example : greedy_path GAB 0 1 = .noPath (noPathMsg 0 1) := by decide
example : greedy_path Gonly1 0 1 = .nodeNotFound (nodeNotFoundMsg 0 1) := by decide
example : greedy_path Gmulti 0 1 = .notImplemented "not implemented for multigraph type" := by decide
example : greedy_path Gcyc 0 2 = .path [0, 1, 2] := by decide
example : greedy_path G01 1 1 = .path [1] := by decide

/-! ## Basic lemmas about the association-list lookup -/

theorem alookup_mem {β : Type} {k : Nat} {l : List (Nat × β)} {v : β}
    (h : alookup k l = some v) : (k, v) ∈ l := by
  induction l with
  | nil => simp [alookup] at h
  | cons a t ih =>
    obtain ⟨a1, a2⟩ := a
    by_cases hk : a1 = k
    · subst hk
      simp only [alookup, if_pos] at h
      cases h
      exact List.mem_cons_self _ _
    · simp only [alookup, if_neg hk] at h
      exact List.mem_cons_of_mem _ (ih h)

theorem alookup_eq_none {β : Type} {k : Nat} {l : List (Nat × β)} :
    alookup k l = none ↔ k ∉ l.map Prod.fst := by
  induction l with
  | nil => simp [alookup]
  | cons a t ih =>
    obtain ⟨a1, a2⟩ := a
    by_cases hk : a1 = k
    · subst hk; simp [alookup]
    · simp [alookup, hk, ih, Ne.symm hk]

theorem alookup_isSome_of_mem {β : Type} {k : Nat} {l : List (Nat × β)} {v : β}
    (h : (k, v) ∈ l) : (alookup k l).isSome := by
  induction l with
  | nil => simp at h
  | cons a t ih =>
    obtain ⟨a1, a2⟩ := a
    rcases List.mem_cons.1 h with h | h
    · cases h; simp [alookup]
    · by_cases hk : a1 = k
      · simp [alookup, hk]
      · simpa [alookup, hk] using ih h

theorem alookup_of_suffix {β : Type} {t l : List (Nat × β)} (hs : t <:+ l)
    (hnd : (l.map Prod.fst).Nodup) {k : Nat} {v : β} (h : alookup k t = some v) :
    alookup k l = some v := by
  obtain ⟨pre, rfl⟩ := hs
  induction pre with
  | nil => simpa using h
  | cons a pre ih =>
    obtain ⟨a1, a2⟩ := a
    simp only [List.cons_append, List.map_cons, List.nodup_cons] at hnd
    have hk : a1 ≠ k := by
      intro hak
      subst hak
      exact hnd.1 (by
        have := alookup_mem h
        exact List.mem_map_of_mem Prod.fst (List.mem_append_right pre this))
    simpa [alookup, hk] using ih hnd.2

/-! ## Decomposition of `popMin` -/

theorem popMin_eq_none {l : List QEntry} : popMin l = none ↔ l = [] := by
  cases l with
  | nil => simp [popMin]
  | cons e t =>
    simp only [popMin]
    cases h : popMin t with
    | none => simp
    | some p =>
      obtain ⟨m, r⟩ := p
      by_cases hc : m.pri < e.pri ∨ (m.pri = e.pri ∧ m.cnt < e.cnt) <;> simp [hc]

theorem popMin_decomp : ∀ {l : List QEntry} {e : QEntry} {r : List QEntry},
    popMin l = some (e, r) → ∃ l₁ l₂, l = l₁ ++ e :: l₂ ∧ r = l₁ ++ l₂ := by
  intro l
  induction l with
  | nil => intro e r h; simp [popMin] at h
  | cons a t ih =>
    intro e r h
    simp only [popMin] at h
    split at h
    next ht =>
      cases h
      have : t = [] := popMin_eq_none.1 ht
      subst this
      exact ⟨[], [], rfl, rfl⟩
    next m r' ht =>
      split at h
      · cases h
        obtain ⟨l₁, l₂, hl, hr⟩ := ih ht
        exact ⟨a :: l₁, l₂, by simp [hl], by simp [hr]⟩
      · cases h
        exact ⟨[], t, rfl, rfl⟩

theorem popMin_mem {l : List QEntry} {e : QEntry} {r : List QEntry}
    (h : popMin l = some (e, r)) : e ∈ l := by
  obtain ⟨l₁, l₂, hl, _⟩ := popMin_decomp h
  subst hl
  exact List.mem_append_right l₁ (List.mem_cons_self _ _)

theorem popMin_rest_subset {l : List QEntry} {e : QEntry} {r : List QEntry}
    (h : popMin l = some (e, r)) : ∀ x ∈ r, x ∈ l := by
  obtain ⟨l₁, l₂, hl, hr⟩ := popMin_decomp h
  subst hl; subst hr
  intro x hx
  rcases List.mem_append.1 hx with hx | hx
  · exact List.mem_append_left _ hx
  · exact List.mem_append_right _ (List.mem_cons_of_mem _ hx)

theorem popMin_length {l : List QEntry} {e : QEntry} {r : List QEntry}
    (h : popMin l = some (e, r)) : l.length = r.length + 1 := by
  obtain ⟨l₁, l₂, hl, hr⟩ := popMin_decomp h
  subst hl; subst hr
  simp [List.length_append]
  omega

/-! ## The finalization-ledger chain predicate -/

/-- Well-formedness of the `explored` ledger as a list (newest first):
a `None` parent marks the source, and every real parent already has its
own ledger entry among the strictly older entries. -/
def ExpOK (G : Graph) (src : Nat) : List (Nat × Option Nat) → Prop
  | [] => True
  | (n, none) :: t => n = src ∧ ExpOK G src t
  | (n, some p) :: t => hasEdge G p n = true ∧ (alookup p t).isSome ∧ ExpOK G src t

theorem ExpOK_tail {G : Graph} {src : Nat} {x : Nat × Option Nat}
    {t : List (Nat × Option Nat)} (h : ExpOK G src (x :: t)) : ExpOK G src t := by
  obtain ⟨n, _ | p⟩ := x
  · exact h.2
  · exact h.2.2

theorem ExpOK_suffix {G : Graph} {src : Nat} {t l : List (Nat × Option Nat)}
    (hs : t <:+ l) (h : ExpOK G src l) : ExpOK G src t := by
  obtain ⟨pre, rfl⟩ := hs
  induction pre with
  | nil => simpa using h
  | cons a pre ih => exact ih (ExpOK_tail h)

theorem ExpOK_mem_none {G : Graph} {src n : Nat} {l : List (Nat × Option Nat)}
    (h : ExpOK G src l) (hm : (n, (none : Option Nat)) ∈ l) : n = src := by
  induction l with
  | nil => simp at hm
  | cons a t ih =>
    rcases List.mem_cons.1 hm with hm | hm
    · subst hm; exact h.1
    · exact ih (ExpOK_tail h) hm

theorem ExpOK_mem_some {G : Graph} {src n p : Nat} {l : List (Nat × Option Nat)}
    (h : ExpOK G src l) (hm : (n, some p) ∈ l) :
    hasEdge G p n = true ∧ ∃ t, ((n, some p) :: t) <:+ l ∧ (alookup p t).isSome := by
  induction l with
  | nil => simp at hm
  | cons a t ih =>
    rcases List.mem_cons.1 hm with hm | hm
    · subst hm
      exact ⟨h.1, t, List.suffix_refl _, h.2.1⟩
    · obtain ⟨he, t', hs, hl⟩ := ih (ExpOK_tail h) hm
      exact ⟨he, t', hs.trans (List.suffix_cons a t), hl⟩

/-! ## The main-loop invariant -/

/-- All facts maintained by every iteration of the `while queue` loop. -/
structure SearchInv (G : Graph) (src tgt : Nat) (s : SState) : Prop where
  /-- `explored` never records the same node twice. -/
  nodupExp : (s.explored.map Prod.fst).Nodup
  /-- The source's ledger entry, once present, is `None`. -/
  expSrc : ∀ v, (src, v) ∈ s.explored → v = none
  /-- Parent chains point at strictly older ledger entries along edges. -/
  expOK : ExpOK G src s.explored
  /-- Every frontier entry is the initial source entry or records an edge
  from an already-finalized parent, and its node is enqueued. -/
  qOK : ∀ e ∈ s.queue, (e.parent = none ∧ e.node = src) ∨
      (∃ p, e.parent = some p ∧ hasEdge G p e.node = true ∧
        (alookup p s.explored).isSome ∧ (alookup e.node s.enqueued).isSome)
  /-- A frontier node that is already finalized has a `None` parent. -/
  qExp : ∀ e ∈ s.queue, ∀ v, alookup e.node s.explored = some v → v = none
  /-- The target is never finalized (popping it returns instead). -/
  tgtUnexp : alookup tgt s.explored = none
  /-- Every finalized node other than the source is enqueued. -/
  expEnq : ∀ n, (alookup n s.explored).isSome → n = src ∨ (alookup n s.enqueued).isSome
  /-- Once any pushed entry exists, the source is finalized. -/
  srcPar : ∀ e ∈ s.queue, e.parent ≠ none → (alookup src s.explored).isSome
  /-- Two frontier entries share a node only for the source. -/
  qPair : s.queue.Pairwise (fun a b => a.node = b.node → a.node = src)

theorem inv_init (G : Graph) (src tgt : Nat) : SearchInv G src tgt (initState src) := by
  refine ⟨?_, ?_, ?_, ?_, ?_, ?_, ?_, ?_, ?_⟩ <;>
    simp [initState, alookup, ExpOK]

/-! ## Specification of the neighbor-expansion fold -/

theorem foldl_process_spec (hfun : Nat → Nat → Int) (wkey : String) (target curnode : Nat)
    (dist : Int) :
    ∀ (adj : List (Nat × Attrs)) (q : List QEntry) (c : Nat) (enq : List (Nat × Int × Int))
      (q' : List QEntry) (c' : Nat) (enq' : List (Nat × Int × Int)),
      adj.foldl (processNbr hfun wkey target curnode dist) (q, c, enq) = (q', c', enq') →
      ∃ new : List QEntry,
        q' = q ++ new ∧
        c ≤ c' ∧
        (∀ n v, alookup n enq = some v → alookup n enq' = some v) ∧
        (∀ n, (alookup n enq').isSome → (alookup n enq).isSome ∨ ∃ attrs, (n, attrs) ∈ adj) ∧
        (∀ e ∈ new, e.parent = some curnode ∧ e.pri = hfun e.node target ∧
          alookup e.node enq = none ∧ (alookup e.node enq').isSome ∧
          (∃ attrs, (e.node, attrs) ∈ adj) ∧ c ≤ e.cnt ∧ e.cnt < c') ∧
        (new.map QEntry.node).Nodup ∧
        List.Chain' (fun a b : QEntry => a.cnt < b.cnt) new := by
  intro adj
  induction adj with
  | nil =>
    intro q c enq q' c' enq' h
    simp only [List.foldl_nil] at h
    obtain ⟨rfl, rfl, rfl⟩ : q = q' ∧ c = c' ∧ enq = enq' := by
      cases h; exact ⟨rfl, rfl, rfl⟩
    exact ⟨[], by simp, le_refl _, fun n v hv => hv, fun n hn => Or.inl hn,
      by simp, by simp, by simp⟩
  | cons nw rest ih =>
    intro q c enq q' c' enq' h
    obtain ⟨m, attrs⟩ := nw
    simp only [List.foldl_cons] at h
    by_cases hm : (alookup m enq).isSome
    · obtain ⟨v, hv⟩ := Option.isSome_iff_exists.1 hm
      have hp : processNbr hfun wkey target curnode dist (q, c, enq) (m, attrs) = (q, c, enq) := by
        simp [processNbr, hv]
      rw [hp] at h
      obtain ⟨new, h1, h2, h3, h4, h5, h6, h7⟩ := ih q c enq q' c' enq' h
      refine ⟨new, h1, h2, h3, ?_, ?_, h6, h7⟩
      · intro n hn
        rcases h4 n hn with hh | ⟨attrs', ha⟩
        · exact Or.inl hh
        · exact Or.inr ⟨attrs', List.mem_cons_of_mem _ ha⟩
      · intro e he
        obtain ⟨p1, p2, p3, p4, ⟨attrs', ha⟩, p6, p7⟩ := h5 e he
        exact ⟨p1, p2, p3, p4, ⟨attrs', List.mem_cons_of_mem _ ha⟩, p6, p7⟩
    · have hno : alookup m enq = none := Option.not_isSome_iff_eq_none.1 hm
      have hp : processNbr hfun wkey target curnode dist (q, c, enq) (m, attrs) =
          (q ++ [⟨hfun m target, c, m, dist + edgeWeight wkey attrs, some curnode⟩], c + 1,
            (m, dist + edgeWeight wkey attrs, hfun m target) :: enq) := by
        simp [processNbr, hno]
      rw [hp] at h
      obtain ⟨new, h1, h2, h3, h4, h5, h6, h7⟩ := ih _ _ _ q' c' enq' h
      have hcons : ∀ n, n ≠ m →
          alookup n ((m, dist + edgeWeight wkey attrs, hfun m target) :: enq) = alookup n enq := by
        intro n hn
        have hmn : m ≠ n := fun hmn => hn hmn.symm
        simp [alookup, hmn]
      refine ⟨⟨hfun m target, c, m, dist + edgeWeight wkey attrs, some curnode⟩ :: new,
        ?_, ?_, ?_, ?_, ?_, ?_, ?_⟩
      · rw [h1]; simp
      · omega
      · intro n v hv
        have hn : n ≠ m := by
          intro hnm
          rw [hnm, hno] at hv
          cases hv
        exact h3 n v (by rw [hcons n hn]; exact hv)
      · intro n hn
        rcases h4 n hn with hh | ⟨attrs', ha⟩
        · by_cases hnm : n = m
          · exact Or.inr ⟨attrs, by rw [hnm]; exact List.mem_cons_self _ _⟩
          · rw [hcons n hnm] at hh
            exact Or.inl hh
        · exact Or.inr ⟨attrs', List.mem_cons_of_mem _ ha⟩
      · intro e he
        rcases List.mem_cons.1 he with rfl | he'
        · -- the freshly recorded node m is still enqueued at the end
          have hm' := h3 m (dist + edgeWeight wkey attrs, hfun m target) (by simp [alookup])
          refine ⟨rfl, rfl, hno, ?_, ⟨attrs, List.mem_cons_self _ _⟩, le_refl c, ?_⟩
          · show (alookup m enq').isSome = true
            rw [hm']
            rfl
          · show c < c'
            omega
        · obtain ⟨p1, p2, p3, p4, ⟨attrs', ha⟩, p6, p7⟩ := h5 e he'
          have hne : e.node ≠ m := by
            intro hnm
            rw [hnm] at p3
            simp [alookup] at p3
          refine ⟨p1, p2, ?_, p4, ⟨attrs', List.mem_cons_of_mem _ ha⟩, by omega, p7⟩
          rw [hcons e.node hne] at p3
          exact p3
      · simp only [List.map_cons, List.nodup_cons]
        refine ⟨?_, h6⟩
        intro hmem
        obtain ⟨e, he, hen⟩ := List.mem_map.1 hmem
        obtain ⟨_, _, p3, _, _, _, _⟩ := h5 e he
        rw [hen] at p3
        simp [alookup] at p3
      · rw [List.chain'_cons']
        refine ⟨?_, h7⟩
        intro b hb
        have hbmem : b ∈ new := List.mem_of_mem_head? hb
        obtain ⟨_, _, _, _, _, p6, _⟩ := h5 b hbmem
        simpa using Nat.lt_of_lt_of_le (Nat.lt_succ_self c) p6

/-- `expand` unfolds to the fold the previous lemma describes. -/
theorem expand_spec (G : Graph) (hfun : Nat → Nat → Int) (wkey : String)
    (target curnode : Nat) (dist : Int) (q : List QEntry) (c : Nat)
    (enq : List (Nat × Int × Int)) (q' : List QEntry) (c' : Nat)
    (enq' : List (Nat × Int × Int))
    (h : expand G hfun wkey target curnode dist q c enq = (q', c', enq')) :
    ∃ new : List QEntry,
      q' = q ++ new ∧
      c ≤ c' ∧
      (∀ n v, alookup n enq = some v → alookup n enq' = some v) ∧
      (∀ n, (alookup n enq').isSome →
        (alookup n enq).isSome ∨ ∃ attrs, (n, attrs) ∈ adjOf G curnode) ∧
      (∀ e ∈ new, e.parent = some curnode ∧ e.pri = hfun e.node target ∧
        alookup e.node enq = none ∧ (alookup e.node enq').isSome ∧
        (∃ attrs, (e.node, attrs) ∈ adjOf G curnode) ∧ c ≤ e.cnt ∧ e.cnt < c') ∧
      (new.map QEntry.node).Nodup ∧
      List.Chain' (fun a b : QEntry => a.cnt < b.cnt) new :=
  foldl_process_spec hfun wkey target curnode dist (adjOf G curnode) q c enq q' c' enq' h

/-- An adjacency pair witnesses an edge. -/
theorem hasEdge_of_mem_adjOf {G : Graph} {n curnode : Nat} {attrs : Attrs}
    (h : (n, attrs) ∈ adjOf G curnode) : hasEdge G curnode n = true := by
  simp only [hasEdge, List.any_eq_true]
  exact ⟨(n, attrs), h, by simp⟩

/-- Every neighbor occurring in an adjacency list is a mentioned node. -/
theorem mem_mentioned_of_mem_adjOf {G : Graph} {n curnode : Nat} {attrs : Attrs}
    (h : (n, attrs) ∈ adjOf G curnode) : n ∈ mentioned G := by
  unfold adjOf at h
  cases hl : alookup curnode G.adj with
  | none => rw [hl] at h; simp at h
  | some l =>
    rw [hl] at h
    simp only [Option.getD_some] at h
    have hmem : (curnode, l) ∈ G.adj := alookup_mem hl
    unfold mentioned
    rw [List.mem_dedup]
    refine List.mem_append_right _ ?_
    rw [List.mem_flatten]
    exact ⟨l.map Prod.fst, List.mem_map_of_mem _ hmem, List.mem_map_of_mem Prod.fst h⟩

/-! ## Small lookup and popMin helpers -/

theorem alookup_cons_self {β : Type} (k : Nat) (b : β) (t : List (Nat × β)) :
    alookup k ((k, b) :: t) = some b := by
  simp [alookup]

theorem alookup_cons_ne {β : Type} {a k : Nat} (b : β) (t : List (Nat × β)) (h : a ≠ k) :
    alookup k ((a, b) :: t) = alookup k t := by
  simp [alookup, h]

theorem alookup_isSome_cons {β : Type} {k a : Nat} {b : β} {t : List (Nat × β)}
    (h : (alookup k t).isSome) : (alookup k ((a, b) :: t)).isSome := by
  by_cases ha : a = k
  · subst ha; simp [alookup]
  · rwa [alookup_cons_ne b t ha]

theorem popMin_same_node {l : List QEntry} {e : QEntry} {r : List QEntry} {src : Nat}
    (h : popMin l = some (e, r))
    (hp : l.Pairwise (fun a b => a.node = b.node → a.node = src)) :
    ∀ x ∈ r, x.node = e.node → x.node = src := by
  obtain ⟨l₁, l₂, hl, hr⟩ := popMin_decomp h
  subst hl hr
  intro x hx hxe
  rcases List.mem_append.1 hx with hx | hx
  · exact (List.pairwise_append.1 hp).2.2 x hx e (List.mem_cons_self _ _) hxe
  · have hrel := (List.pairwise_cons.1 (List.pairwise_append.1 hp).2.1).1 x hx
    exact hxe.trans (hrel hxe.symm)

theorem popMin_rest_pairwise {l : List QEntry} {e : QEntry} {r : List QEntry}
    {R : QEntry → QEntry → Prop} (h : popMin l = some (e, r)) (hp : l.Pairwise R) :
    r.Pairwise R := by
  obtain ⟨l₁, l₂, hl, hr⟩ := popMin_decomp h
  subst hl hr
  have hsplit := List.pairwise_append.1 hp
  refine List.pairwise_append.2 ⟨hsplit.1, (List.pairwise_cons.1 hsplit.2.1).2, ?_⟩
  intro a ha b hb
  exact hsplit.2.2 a ha b (List.mem_cons_of_mem _ hb)

/-! ## Preservation of the invariant by one loop iteration -/

theorem inv_step {G : Graph} {hfun : Nat → Nat → Int} {wkey : String} {src tgt : Nat}
    {s s' : SState} (hinv : SearchInv G src tgt s)
    (h : step G hfun wkey tgt s = .next s') : SearchInv G src tgt s' := by
  unfold step at h
  cases hpop : popMin s.queue with
  | none => rw [hpop] at h; cases h
  | some er =>
    obtain ⟨e, rest⟩ := er
    rw [hpop] at h
    simp only [] at h
    have hemem : e ∈ s.queue := popMin_mem hpop
    have hrest : ∀ x ∈ rest, x ∈ s.queue := popMin_rest_subset hpop
    by_cases htgt : e.node = tgt
    · rw [if_pos htgt] at h; cases h
    · rw [if_neg htgt] at h
      -- `e.parent = none` whenever the popped node is the source
      have hsrcnone : e.node = src → alookup src s.explored = none → e.parent = none := by
        intro hes hnone
        rcases hinv.qOK e hemem with ⟨hp, _⟩ | ⟨p, hp, _, _, _⟩
        · exact hp
        · have := hinv.srcPar e hemem (by rw [hp]; exact Option.some_ne_none p)
          rw [hnone] at this
          cases this
      cases hexp : alookup e.node s.explored with
      | some v =>
        have hv : v = none := hinv.qExp e hemem v hexp
        subst hv
        rw [hexp] at h
        -- the `some none` arm: skip, only the queue shrinks
        cases h
        exact
          { nodupExp := hinv.nodupExp
            expSrc := hinv.expSrc
            expOK := hinv.expOK
            qOK := fun x hx => hinv.qOK x (hrest x hx)
            qExp := fun x hx => hinv.qExp x (hrest x hx)
            tgtUnexp := hinv.tgtUnexp
            expEnq := hinv.expEnq
            srcPar := fun x hx => hinv.srcPar x (hrest x hx)
            qPair := popMin_rest_pairwise hpop hinv.qPair }
      | none =>
        rw [hexp] at h
        rcases hE : expand G hfun wkey tgt e.node e.dist rest s.cnt s.enqueued
          with ⟨q', c', enq'⟩
        simp only [hE] at h
        cases h
        obtain ⟨new, h1, h2, h3, h4, h5, h6, h7⟩ :=
          expand_spec G hfun wkey tgt e.node e.dist rest s.cnt s.enqueued q' c' enq' hE
        subst h1
        have h3some : ∀ n, (alookup n s.enqueued).isSome → (alookup n enq').isSome := by
          intro n hn
          obtain ⟨v, hv⟩ := Option.isSome_iff_exists.1 hn
          exact Option.isSome_iff_exists.2 ⟨v, h3 n v hv⟩
        have hnotmem : e.node ∉ s.explored.map Prod.fst := alookup_eq_none.1 hexp
        -- the popped entry's parent, when the popped node is the source
        have hparsrc : e.node = src → e.parent = none := fun hes => hsrcnone hes (hes ▸ hexp)
        refine
          { nodupExp := ?_
            expSrc := ?_
            expOK := ?_
            qOK := ?_
            qExp := ?_
            tgtUnexp := ?_
            expEnq := ?_
            srcPar := ?_
            qPair := ?_ }
        · exact List.nodup_cons.2 ⟨hnotmem, hinv.nodupExp⟩
        · intro v hv
          rcases List.mem_cons.1 hv with hv | hv
          · have hes : e.node = src := (congrArg Prod.fst hv).symm
            have hvp : v = e.parent := congrArg Prod.snd hv
            rw [hvp]
            exact hparsrc hes
          · exact hinv.expSrc v hv
        · cases hpar : e.parent with
          | none =>
            have hes : e.node = src := by
              rcases hinv.qOK e hemem with ⟨_, hs⟩ | ⟨p, hp, _, _, _⟩
              · exact hs
              · rw [hpar] at hp; cases hp
            show ExpOK G src ((e.node, none) :: s.explored)
            exact ⟨hes, hinv.expOK⟩
          | some p =>
            rcases hinv.qOK e hemem with ⟨hp, _⟩ | ⟨p', hp', hedge, hsome, _⟩
            · rw [hpar] at hp; cases hp
            · rw [hpar] at hp'
              have hpp : p' = p := by cases hp'; rfl
              subst hpp
              show ExpOK G src ((e.node, some p') :: s.explored)
              exact ⟨hedge, hsome, hinv.expOK⟩
        · intro x hx
          rcases List.mem_append.1 hx with hx | hx
          · rcases hinv.qOK x (hrest x hx) with ⟨hp, hs⟩ | ⟨p, hp, hedge, hsome, henq⟩
            · exact Or.inl ⟨hp, hs⟩
            · exact Or.inr ⟨p, hp, hedge, alookup_isSome_cons hsome, h3some _ henq⟩
          · obtain ⟨hp, _, _, hsome', ⟨attrs, hadj⟩, _, _⟩ := h5 x hx
            refine Or.inr ⟨e.node, hp, hasEdge_of_mem_adjOf hadj, ?_, hsome'⟩
            rw [alookup_cons_self]
            rfl
        · intro x hx v hv
          by_cases hxe : x.node = e.node
          · rw [hxe, alookup_cons_self] at hv
            have hvp : v = e.parent := by cases hv; rfl
            subst hvp
            rcases List.mem_append.1 hx with hx | hx
            · exact hparsrc ((popMin_same_node hpop hinv.qPair x hx hxe).symm.trans hxe).symm
            · obtain ⟨_, _, hnone, _, _, _, _⟩ := h5 x hx
              rcases hinv.qOK e hemem with ⟨hp, _⟩ | ⟨p, _, _, _, henq⟩
              · exact hp
              · rw [← hxe] at henq
                rw [hnone] at henq
                cases henq
          · rw [alookup_cons_ne _ _ (fun hh => hxe hh.symm)] at hv
            rcases List.mem_append.1 hx with hx | hx
            · exact hinv.qExp x (hrest x hx) v hv
            · obtain ⟨_, _, hnone, _, _, _, _⟩ := h5 x hx
              rcases hinv.expEnq x.node (by rw [hv]; rfl) with hxs | hxs
              · exact hinv.expSrc v (hxs ▸ alookup_mem hv)
              · rw [hnone] at hxs; cases hxs
        · rw [alookup_cons_ne _ _ htgt]
          exact hinv.tgtUnexp
        · intro n hn
          by_cases hne : n = e.node
          · subst hne
            rcases hinv.qOK e hemem with ⟨_, hs⟩ | ⟨p, _, _, _, henq⟩
            · exact Or.inl hs
            · exact Or.inr (h3some _ henq)
          · rw [alookup_cons_ne _ _ (fun hh => hne hh.symm)] at hn
            rcases hinv.expEnq n hn with hs | hs
            · exact Or.inl hs
            · exact Or.inr (h3some _ hs)
        · intro x hx hxpar
          by_cases hes : e.node = src
          · rw [← hes, alookup_cons_self]; rfl
          · rw [alookup_cons_ne _ _ hes]
            rcases List.mem_append.1 hx with hx | hx
            · exact hinv.srcPar x (hrest x hx) hxpar
            · rcases hinv.qOK e hemem with ⟨_, hs⟩ | ⟨p, hp, _, _, _⟩
              · exact absurd hs hes
              · exact hinv.srcPar e hemem (by rw [hp]; exact Option.some_ne_none p)
        · refine List.pairwise_append.2 ⟨popMin_rest_pairwise hpop hinv.qPair, ?_, ?_⟩
          · have hne : new.Pairwise (fun a b => a.node ≠ b.node) := List.pairwise_map.1 h6
            exact hne.imp (fun hab hn => absurd hn hab)
          · intro a ha b hb hab
            obtain ⟨_, _, hnone, _, _, _, _⟩ := h5 b hb
            rcases hinv.qOK a (hrest a ha) with ⟨_, hs⟩ | ⟨p, _, _, _, henq⟩
            · exact hs
            · rw [hab, hnone] at henq
              cases henq

theorem inv_reachable {G : Graph} {hfun : Nat → Nat → Int} {wkey : String} {src tgt : Nat}
    {s : SState} (h : ReachableFrom G hfun wkey tgt (initState src) s) :
    SearchInv G src tgt s := by
  induction h with
  | refl => exact inv_init G src tgt
  | tail _ hbc ih => exact inv_step ih hbc

/-! ## The reconstruction walk terminates at the source -/

theorem walkBack_spec {G : Graph} {src : Nat} {explored : List (Nat × Option Nat)}
    (hok : ExpOK G src explored) (hnd : (explored.map Prod.fst).Nodup) :
    ∀ t : List (Nat × Option Nat), t <:+ explored →
    ∀ fuel : Nat, t.length < fuel →
    ∀ (n : Nat) (v : Option Nat), alookup n t = some v →
    ∃ tail : List Nat,
      (∀ acc : List Nat, walkBack explored fuel (some n) acc = some ((acc ++ tail).reverse)) ∧
      tail ≠ [] ∧ tail.head? = some n ∧ tail.getLast? = some src ∧
      List.Chain' (fun a b => hasEdge G b a = true) tail := by
  intro t
  induction t with
  | nil => intro _ fuel _ n v hv; simp [alookup] at hv
  | cons x t' ih =>
    intro hs fuel hf n v hv
    obtain ⟨m, w⟩ := x
    have hs' : t' <:+ explored := (List.suffix_cons (m, w) t').trans hs
    by_cases hnm : m = n
    · subst hnm
      have hv' : w = v := by simpa [alookup] using hv
      subst hv'
      have hfull : alookup m explored = some w :=
        alookup_of_suffix hs hnd (alookup_cons_self m w t')
      have hokt : ExpOK G src ((m, w) :: t') := ExpOK_suffix hs hok
      cases fuel with
      | zero => simp at hf
      | succ f =>
        cases w with
        | none =>
          have hmsrc : m = src := hokt.1
          refine ⟨[m], ?_, by simp, by simp, by simp [hmsrc], by simp⟩
          intro acc
          simp only [walkBack, hfull]
        | some p =>
          have hedge : hasEdge G p m = true := hokt.1
          obtain ⟨vp, hvp⟩ := Option.isSome_iff_exists.1 hokt.2.1
          have hlen : t'.length < f := by
            simp only [List.length_cons] at hf
            omega
          obtain ⟨tail, hwalk, hne, hhead, hlast, hchain⟩ := ih hs' f hlen p vp hvp
          refine ⟨m :: tail, ?_, by simp, by simp, ?_, ?_⟩
          · intro acc
            simp only [walkBack, hfull]
            rw [hwalk (acc ++ [m])]
            simp
          · cases tail with
            | nil => exact absurd rfl hne
            | cons a l => rw [List.getLast?_cons_cons]; exact hlast
          · rw [List.chain'_cons']
            refine ⟨?_, hchain⟩
            intro y hy
            rw [hhead, Option.mem_some_iff] at hy
            subst hy
            exact hedge
    · have hv' : alookup n t' = some v := by
        rw [alookup_cons_ne w t' hnm] at hv
        exact hv
      have hlen : t'.length < fuel := by
        simp only [List.length_cons] at hf
        omega
      exact ih hs' fuel hlen n v hv'

/-! ## Successful iterations return a genuine source-to-target path -/

theorem step_success {G : Graph} {hfun : Nat → Nat → Int} {wkey : String} {src tgt : Nat}
    {s : SState} {r : Option (List Nat)} (hinv : SearchInv G src tgt s)
    (h : step G hfun wkey tgt s = .success r) :
    ∃ p : List Nat, r = some p ∧ p.head? = some src ∧ p.getLast? = some tgt ∧
      List.Chain' (fun a b => hasEdge G a b = true) p := by
  unfold step at h
  cases hpop : popMin s.queue with
  | none => rw [hpop] at h; cases h
  | some er =>
    obtain ⟨e, rest⟩ := er
    rw [hpop] at h
    simp only [] at h
    by_cases htgt : e.node = tgt
    · rw [if_pos htgt] at h
      have hr : r = walkBack s.explored (s.explored.length + 1) e.parent [e.node] := by
        cases h; rfl
      subst hr
      cases hpar : e.parent with
      | none =>
        have hes : e.node = src := by
          rcases hinv.qOK e (popMin_mem hpop) with ⟨_, hs⟩ | ⟨p, hp, _, _, _⟩
          · exact hs
          · rw [hpar] at hp; cases hp
        refine ⟨[e.node], ?_, by simp [hes], by simp [htgt], by simp⟩
        simp [walkBack]
      | some p =>
        rcases hinv.qOK e (popMin_mem hpop) with ⟨hp, _⟩ | ⟨p', hp', hedge, hsome, _⟩
        · rw [hpar] at hp; cases hp
        · rw [hpar] at hp'
          have hpp : p' = p := by cases hp'; rfl
          subst hpp
          obtain ⟨vp, hvp⟩ := Option.isSome_iff_exists.1 hsome
          obtain ⟨tail, hwalk, hne, hhead, hlast, hchain⟩ :=
            walkBack_spec hinv.expOK hinv.nodupExp s.explored (List.suffix_refl _)
              (s.explored.length + 1) (Nat.lt_succ_self _) p' vp hvp
          refine ⟨(([e.node] ++ tail)).reverse, hwalk [e.node], ?_, ?_, ?_⟩
          · rw [List.head?_reverse]
            cases tail with
            | nil => exact absurd rfl hne
            | cons a l =>
              rw [List.singleton_append, List.getLast?_cons_cons]
              exact hlast
          · rw [List.getLast?_reverse]
            simp [htgt]
          · rw [List.chain'_reverse]
            rw [List.singleton_append, List.chain'_cons']
            refine ⟨?_, hchain⟩
            intro y hy
            rw [hhead, Option.mem_some_iff] at hy
            subst hy
            exact hedge
    · rw [if_neg htgt] at h
      cases hexp : alookup e.node s.explored with
      | some v =>
        cases v with
        | none => rw [hexp] at h; cases h
        | some p => rw [hexp] at h; cases h
      | none => rw [hexp] at h; cases h

/-! ## Fuel sufficiency: a decreasing measure for the main loop -/

/-- Mentioned nodes still outside the discovery ledger. -/
def notEnqCount (G : Graph) (enq : List (Nat × Int × Int)) : Nat :=
  ((mentioned G).filter (fun n => (alookup n enq).isNone)).length

/-- Each iteration strictly decreases this quantity. -/
def stateMeasure (G : Graph) (s : SState) : Nat :=
  s.queue.length + notEnqCount G s.enqueued

theorem filter_count_le {l : List Nat} :
    ∀ {sub : List Nat} {P Q : Nat → Bool},
    (∀ x, Q x = true → P x = true) →
    (∀ x ∈ sub, x ∈ l) → sub.Nodup →
    (∀ x ∈ sub, P x = true ∧ Q x = false) →
    (l.filter Q).length + sub.length ≤ (l.filter P).length := by
  induction l with
  | nil =>
    intro sub P Q _ hsub _ _
    cases sub with
    | nil => simp
    | cons a s => exact absurd (hsub a (List.mem_cons_self a s)) (by simp)
  | cons a l ih =>
    intro sub P Q hmono hsub hnd hx
    by_cases ha : a ∈ sub
    · have hPa : P a = true := (hx a ha).1
      have hQa : Q a = false := (hx a ha).2
      have hsub' : ∀ x ∈ sub.erase a, x ∈ l := by
        intro x hxm
        have hxa := (List.Nodup.mem_erase_iff hnd).1 hxm
        rcases List.mem_cons.1 (hsub x hxa.2) with rfl | hmem
        · exact absurd rfl hxa.1
        · exact hmem
      have hrec := ih hmono hsub' (hnd.erase a)
        (fun x hxm => hx x ((List.Nodup.mem_erase_iff hnd).1 hxm).2)
      have hlen : (sub.erase a).length + 1 = sub.length := by
        rw [List.length_erase_of_mem ha]
        have := List.length_pos.2 (List.ne_nil_of_mem ha)
        omega
      rw [List.filter_cons_of_neg (by simp [hQa]), List.filter_cons_of_pos (by simp [hPa])]
      simp only [List.length_cons]
      omega
    · have hsub' : ∀ x ∈ sub, x ∈ l := by
        intro x hxm
        rcases List.mem_cons.1 (hsub x hxm) with rfl | hmem
        · exact absurd hxm ha
        · exact hmem
      have hrec := ih hmono hsub' hnd hx
      by_cases hQa : Q a = true
      · rw [List.filter_cons_of_pos (by simp [hQa]),
          List.filter_cons_of_pos (by simp [hmono a hQa])]
        simp only [List.length_cons]
        omega
      · have hQa' : Q a = false := by
          cases hq : Q a
          · rfl
          · exact absurd hq hQa
        rw [List.filter_cons_of_neg (by simp [hQa'])]
        by_cases hPa : P a = true
        · rw [List.filter_cons_of_pos (by simp [hPa])]
          simp only [List.length_cons]
          omega
        · have hPa' : P a = false := by
            cases hp : P a
            · rfl
            · exact absurd hp hPa
          rw [List.filter_cons_of_neg (by simp [hPa'])]
          omega

theorem step_measure {G : Graph} {hfun : Nat → Nat → Int} {wkey : String} {tgt : Nat}
    {s s' : SState} (h : step G hfun wkey tgt s = .next s') :
    stateMeasure G s' < stateMeasure G s := by
  unfold step at h
  cases hpop : popMin s.queue with
  | none => rw [hpop] at h; cases h
  | some er =>
    obtain ⟨e, rest⟩ := er
    rw [hpop] at h
    simp only [] at h
    have hlen : s.queue.length = rest.length + 1 := popMin_length hpop
    by_cases htgt : e.node = tgt
    · rw [if_pos htgt] at h; cases h
    · rw [if_neg htgt] at h
      have hdefault : ∀ q' c' enq',
          expand G hfun wkey tgt e.node e.dist rest s.cnt s.enqueued = (q', c', enq') →
          s' = ⟨q', c', enq', (e.node, e.parent) :: s.explored⟩ →
          stateMeasure G s' < stateMeasure G s := by
        intro q' c' enq' hE hs'
        obtain ⟨new, h1, _, h3, _, h5, h6, _⟩ :=
          expand_spec G hfun wkey tgt e.node e.dist rest s.cnt s.enqueued q' c' enq' hE
        have h3some : ∀ n, (alookup n s.enqueued).isSome → (alookup n enq').isSome := by
          intro n hn
          obtain ⟨v, hv⟩ := Option.isSome_iff_exists.1 hn
          exact Option.isSome_iff_exists.2 ⟨v, h3 n v hv⟩
        have hcount : ((mentioned G).filter (fun n => (alookup n enq').isNone)).length
            + (new.map QEntry.node).length
            ≤ ((mentioned G).filter (fun n => (alookup n s.enqueued).isNone)).length := by
          refine filter_count_le ?_ ?_ h6 ?_
          · intro x hq
            cases hp : (alookup x s.enqueued).isNone
            · have : (alookup x s.enqueued).isSome := by
                cases hlk : alookup x s.enqueued
                · rw [hlk] at hp; cases hp
                · rfl
              have := h3some x this
              rw [Option.isNone_iff_eq_none] at hq
              rw [hq] at this
              cases this
            · rfl
          · intro x hxm
            obtain ⟨y, hy, hyx⟩ := List.mem_map.1 hxm
            obtain ⟨_, _, _, _, ⟨attrs, hadj⟩, _, _⟩ := h5 y hy
            rw [← hyx]
            exact mem_mentioned_of_mem_adjOf hadj
          · intro x hxm
            obtain ⟨y, hy, hyx⟩ := List.mem_map.1 hxm
            obtain ⟨_, _, hnone, hsome', _, _, _⟩ := h5 y hy
            subst hyx
            constructor
            · rw [hnone]; rfl
            · cases hlk : alookup y.node enq'
              · rw [hlk] at hsome'; cases hsome'
              · rfl
        rw [hs']
        unfold stateMeasure notEnqCount
        simp only [h1, List.length_append, List.length_map] at *
        omega
      cases hexp : alookup e.node s.explored with
      | some v =>
        cases v with
        | none =>
          rw [hexp] at h
          cases h
          unfold stateMeasure
          simp only []
          omega
        | some p =>
          rw [hexp] at h
          rcases hE : expand G hfun wkey tgt e.node e.dist rest s.cnt s.enqueued
            with ⟨q', c', enq'⟩
          simp only [hE] at h
          cases h
          exact hdefault q' c' enq' hE rfl
      | none =>
        rw [hexp] at h
        rcases hE : expand G hfun wkey tgt e.node e.dist rest s.cnt s.enqueued
          with ⟨q', c', enq'⟩
        simp only [hE] at h
        cases h
        exact hdefault q' c' enq' hE rfl

/-- With the invariant and enough fuel, the loop ends in a path or in
frontier exhaustion: never in fuel exhaustion or a reconstruction error. -/
theorem loop_result {G : Graph} {hfun : Nat → Nat → Int} {wkey : String} {src tgt : Nat} :
    ∀ (fuel : Nat) (s : SState), SearchInv G src tgt s → stateMeasure G s < fuel →
    (∃ p, loop G hfun wkey tgt fuel s = some (.path p)) ∨
      loop G hfun wkey tgt fuel s = some .exhausted := by
  intro fuel
  induction fuel with
  | zero => intro s _ h; omega
  | succ f ih =>
    intro s hinv hm
    cases hstep : step G hfun wkey tgt s with
    | success r =>
      obtain ⟨p, hp, _, _, _⟩ := step_success hinv hstep
      subst hp
      rw [loop, hstep]
      exact Or.inl ⟨p, rfl⟩
    | exhausted =>
      rw [loop, hstep]
      exact Or.inr rfl
    | next s' =>
      rw [loop, hstep]
      have hm' : stateMeasure G s' < f :=
        Nat.lt_of_lt_of_le (step_measure hstep) (Nat.lt_succ_iff.1 hm)
      exact ih s' (inv_step hinv hstep) hm'

/-- A returned path always satisfies the endpoint and edge properties. -/
theorem loop_path_sound {G : Graph} {hfun : Nat → Nat → Int} {wkey : String} {src tgt : Nat} :
    ∀ (fuel : Nat) (s : SState), SearchInv G src tgt s →
    ∀ {p : List Nat}, loop G hfun wkey tgt fuel s = some (.path p) →
    p.head? = some src ∧ p.getLast? = some tgt ∧
      List.Chain' (fun a b => hasEdge G a b = true) p := by
  intro fuel
  induction fuel with
  | zero => intro s _ p h; cases h
  | succ f ih =>
    intro s hinv p h
    rw [loop] at h
    cases hstep : step G hfun wkey tgt s with
    | success r =>
      rw [hstep] at h
      obtain ⟨q, hq, hhead, hlast, hchain⟩ := step_success hinv hstep
      subst hq
      simp only [] at h
      cases h
      exact ⟨hhead, hlast, hchain⟩
    | exhausted =>
      rw [hstep] at h
      simp at h
    | next s' =>
      rw [hstep] at h
      exact ih s' (inv_step hinv hstep) h

/-- The initial state fits inside `searchFuel`. -/
theorem measure_init_lt (G : Graph) (source : Nat) :
    stateMeasure G (initState source) < searchFuel G := by
  unfold stateMeasure initState notEnqCount searchFuel
  have hle : ((mentioned G).filter (fun n => (alookup n ([] : List (Nat × Int × Int))).isNone)).length
      ≤ (mentioned G).length := List.length_filter_le _ _
  simp only [List.length_cons, List.length_nil]
  omega

/-! ## Claim theorems -/

/-- C1: for every graph, source, target, heuristic and weight key, if
`greedy_path` returns a path then its first element is the source, its
last element is the target, and every pair of consecutive nodes in the
path is connected by an existing directed edge of the graph. -/
theorem greedy_path_valid (G : Graph) (source target : Nat)
    (heuristic : Option (Nat → Nat → Int)) (weight : String) (p : List Nat)
    (h : greedy_path G source target heuristic weight = .path p) :
    p.head? = some source ∧ p.getLast? = some target ∧
      List.Chain' (fun a b => hasEdge G a b = true) p := by
  unfold greedy_path at h
  by_cases hmg : G.multigraph = true
  · rw [if_pos hmg] at h; cases h
  · rw [if_neg hmg] at h
    by_cases hc : (!containsNode G source || !containsNode G target) = true
    · rw [if_pos hc] at h; cases h
    · rw [if_neg hc] at h
      cases hl : loop G (heuristic.getD fun _ _ => 0) weight target (searchFuel G)
          (initState source) with
      | none => simp only [hl] at h; cases h
      | some res =>
        cases res with
        | path q =>
          simp only [hl] at h
          cases h
          exact loop_path_sound (searchFuel G) (initState source)
            (inv_init G source target) hl
        | exhausted => simp only [hl] at h; cases h
        | reconError => simp only [hl] at h; cases h

theorem greedy_path_valid_witness :
    greedy_path G01 0 1 none "weight" = .path [0, 1] ∧
    ([0, 1] : List Nat).head? = some 0 ∧ ([0, 1] : List Nat).getLast? = some 1 ∧
      List.Chain' (fun a b => hasEdge G01 a b = true) [0, 1] :=
  ⟨by decide, greedy_path_valid G01 0 1 none "weight" [0, 1] (by decide)⟩

/-- C6: for every non-multigraph graph containing a node `n`, calling
`greedy_path` with source = target = `n` returns the single-element
path `[n]`. -/
theorem greedy_path_self (G : Graph) (n : Nat) (heuristic : Option (Nat → Nat → Int))
    (weight : String) (hmg : G.multigraph = false) (hn : containsNode G n = true) :
    greedy_path G n n heuristic weight = .path [n] := by
  unfold greedy_path
  rw [if_neg (by simp [hmg]), if_neg (by simp [hn])]
  have hstep : step G (heuristic.getD fun _ _ => 0) weight n (initState n) =
      .success (some [n]) := by
    unfold step initState
    rw [show popMin [⟨0, 0, n, 0, none⟩] = some (⟨0, 0, n, 0, none⟩, []) from rfl]
    simp [walkBack]
  have hloop : loop G (heuristic.getD fun _ _ => 0) weight n (searchFuel G)
      (initState n) = some (.path [n]) := by
    rw [show searchFuel G = (mentioned G).length + 1 + 1 from rfl]
    rw [loop, hstep]
  simp only [hloop]

theorem greedy_path_self_witness :
    G01.multigraph = false ∧ containsNode G01 1 = true ∧
      greedy_path G01 1 1 none "weight" = .path [1] :=
  ⟨rfl, by decide, greedy_path_self G01 1 none "weight" rfl (by decide)⟩

/-- C2 (counterexample): with source 0 absent and target 1 present, the
message still names the present target 1, so the error does not identify
exactly the missing node. -/
theorem nodeNotFound_names_present_node :
    greedy_path Gonly1 0 1 none "weight" =
      .nodeNotFound "Either source 0 or target 1 is not in G" ∧
    containsNode Gonly1 1 = true ∧ containsNode Gonly1 0 = false ∧
    mentionsNode "Either source 0 or target 1 is not in G" 1 := by
  refine ⟨by decide, by decide, by decide, by decide⟩

/-- C2 (amended): on a non-multigraph graph, whenever the source and/or
the target is absent, the call fails with NodeNotFound before any search
state is built, and the message is always formatted from both the source
and the target, naming both regardless of which one is absent. -/
theorem greedy_path_nodeNotFound (G : Graph) (source target : Nat)
    (heuristic : Option (Nat → Nat → Int)) (weight : String)
    (hmg : G.multigraph = false)
    (h : containsNode G source = false ∨ containsNode G target = false) :
    greedy_path G source target heuristic weight =
      .nodeNotFound (nodeNotFoundMsg source target) := by
  unfold greedy_path
  rw [if_neg (by simp [hmg])]
  have hc : (!containsNode G source || !containsNode G target) = true := by
    rcases h with h | h <;> simp [h]
  rw [if_pos hc]

theorem greedy_path_nodeNotFound_witness :
    Gonly1.multigraph = false ∧ containsNode Gonly1 0 = false ∧
      greedy_path Gonly1 0 1 none "weight" = .nodeNotFound (nodeNotFoundMsg 0 1) :=
  ⟨rfl, by decide,
    greedy_path_nodeNotFound Gonly1 0 1 none "weight" rfl (Or.inl (by decide))⟩

/-- C8: on a multigraph-kind graph the call is rejected before any
traversal, for every source, target, heuristic and weight key. -/
theorem greedy_path_multigraph (G : Graph) (source target : Nat)
    (heuristic : Option (Nat → Nat → Int)) (weight : String)
    (hmg : G.multigraph = true) :
    greedy_path G source target heuristic weight =
      .notImplemented "not implemented for multigraph type" := by
  unfold greedy_path
  rw [if_pos hmg]

theorem greedy_path_multigraph_witness :
    Gmulti.multigraph = true ∧
      greedy_path Gmulti 0 1 none "weight" =
        .notImplemented "not implemented for multigraph type" :=
  ⟨rfl, greedy_path_multigraph Gmulti 0 1 none "weight" rfl⟩

/-- C5: exhausting the frontier without ever popping the target raises the
"no path" error whose message carries both the source and the target; in
particular the two isolated nodes 0 and 1 produce exactly that error. -/
theorem greedy_path_noPath (G : Graph) (source target : Nat)
    (heuristic : Option (Nat → Nat → Int)) (weight : String) :
    (∀ (hfun : Nat → Nat → Int) (fuel : Nat) (s : SState), s.queue = [] →
      loop G hfun weight target (fuel + 1) s = some .exhausted) ∧
    (G.multigraph = false → containsNode G source = true → containsNode G target = true →
      loop G (heuristic.getD fun _ _ => 0) weight target (searchFuel G) (initState source) =
        some .exhausted →
      greedy_path G source target heuristic weight = .noPath (noPathMsg source target)) ∧
    greedy_path GAB 0 1 none "weight" = .noPath (noPathMsg 0 1) ∧
    mentionsNode (noPathMsg 0 1) 0 ∧ mentionsNode (noPathMsg 0 1) 1 := by
  refine ⟨?_, ?_, by decide, by decide, by decide⟩
  · intro hfun fuel s hq
    rw [loop]
    unfold step
    rw [hq]
    rfl
  · intro hmg hs ht hl
    unfold greedy_path
    rw [if_neg (by simp [hmg]), if_neg (by simp [hs, ht])]
    simp only [hl]

theorem greedy_path_noPath_witness :
    loop GAB (fun _ _ => 0) "weight" 1 1 ⟨[], 1, [], []⟩ = some .exhausted ∧
    greedy_path GAB 0 1 none "weight" = .noPath (noPathMsg 0 1) :=
  ⟨(greedy_path_noPath GAB 0 1 none "weight").1 (fun _ _ => 0) 0 ⟨[], 1, [], []⟩ rfl,
   (greedy_path_noPath GAB 0 1 none "weight").2.1 rfl (by decide) (by decide) (by decide)⟩

/-- C9: on every non-multigraph graph containing the source and the
target, the default (zero) heuristic call terminates in a genuine result:
it returns a path or raises the "no path" error; fuel exhaustion and
reconstruction failure cannot occur. -/
theorem greedy_path_terminates (G : Graph) (source target : Nat) (weight : String)
    (hmg : G.multigraph = false) (hs : containsNode G source = true)
    (ht : containsNode G target = true) :
    (∃ p, greedy_path G source target none weight = .path p) ∨
      greedy_path G source target none weight = .noPath (noPathMsg source target) := by
  unfold greedy_path
  rw [if_neg (by simp [hmg]), if_neg (by simp [hs, ht])]
  rcases @loop_result G ((none : Option (Nat → Nat → Int)).getD fun _ _ => 0) weight
      source target (searchFuel G) (initState source) (inv_init G source target)
      (measure_init_lt G source) with ⟨p, hp⟩ | hp
  · exact Or.inl ⟨p, by simp only [hp]⟩
  · exact Or.inr (by simp only [hp])

theorem greedy_path_terminates_witness :
    (∃ p, greedy_path G01 0 1 none "weight" = .path p) ∨
      greedy_path G01 0 1 none "weight" = .noPath (noPathMsg 0 1) :=
  greedy_path_terminates G01 0 1 "weight" rfl (by decide) (by decide)

/-- State of the `Gcyc` search (source 0, target 2, zero heuristic) after
one iteration: node 0 is finalized and node 1 is on the frontier. -/
def cycS1 : SState :=
  ⟨[⟨0, 1, 1, 1, some 0⟩], 2, [(1, (1, 0))], [(0, none)]⟩

/-- Same search after two iterations: node 1 is finalized, and node 0 has
been pushed a second time (edge 1 → 0) with the smaller counter 2, so the
next pop returns the already-finalized node 0. -/
def cycS2 : SState :=
  ⟨[⟨0, 2, 0, 2, some 1⟩, ⟨0, 3, 2, 2, some 1⟩], 4,
    [(2, (2, 0)), (0, (2, 0)), (1, (1, 0))], [(1, some 0), (0, none)]⟩

theorem cyc_reach_s2 :
    ReachableFrom Gcyc (fun _ _ => 0) "weight" 2 (initState 0) cycS2 := by
  have h1 : StepNext Gcyc (fun _ _ => 0) "weight" 2 (initState 0) cycS1 := by
    show step Gcyc (fun _ _ => 0) "weight" 2 (initState 0) = .next cycS1
    decide
  have h2 : StepNext Gcyc (fun _ _ => 0) "weight" 2 cycS1 cycS2 := by
    show step Gcyc (fun _ _ => 0) "weight" 2 cycS1 = .next cycS2
    decide
  exact Relation.ReflTransGen.tail (Relation.ReflTransGen.tail Relation.ReflTransGen.refl h1) h2

/-- C4: in every state the main loop can reach, a popped node that already
has a finalization-ledger entry is skipped entirely: the ledger, the
discovery ledger and the counter are unchanged and no neighbor is pushed;
only the popped entry leaves the frontier. -/
theorem duplicate_pop_skipped (G : Graph) (hfun : Nat → Nat → Int) (weight : String)
    (source target : Nat) (s : SState) (e : QEntry) (rest : List QEntry) (pr : Option Nat)
    (hreach : ReachableFrom G hfun weight target (initState source) s)
    (hpop : popMin s.queue = some (e, rest))
    (hexp : alookup e.node s.explored = some pr) :
    step G hfun weight target s = .next ⟨rest, s.cnt, s.enqueued, s.explored⟩ := by
  have hinv := inv_reachable hreach
  have hpr : pr = none := hinv.qExp e (popMin_mem hpop) pr hexp
  subst hpr
  have htgt : ¬ e.node = target := by
    intro hh
    rw [hh, hinv.tgtUnexp] at hexp
    cases hexp
  unfold step
  rw [hpop]
  simp only []
  rw [if_neg htgt, hexp]

theorem duplicate_pop_skipped_witness :
    step Gcyc (fun _ _ => 0) "weight" 2 cycS2 =
      .next ⟨[⟨0, 3, 2, 2, some 1⟩], cycS2.cnt, cycS2.enqueued, cycS2.explored⟩ :=
  duplicate_pop_skipped Gcyc (fun _ _ => 0) "weight" 0 2 cycS2 ⟨0, 2, 0, 2, some 1⟩
    [⟨0, 3, 2, 2, some 1⟩] none cyc_reach_s2 (by decide) (by decide)

/-- C10: in every reachable state the finalization ledger's predecessor
chain is well founded: a source entry is always `None`, every real
predecessor already has its own ledger entry, and the backward walk from
any recorded node terminates, producing a chain from the source to that
node. -/
theorem parent_chain_wellFounded (G : Graph) (hfun : Nat → Nat → Int) (weight : String)
    (source target : Nat) (s : SState)
    (hreach : ReachableFrom G hfun weight target (initState source) s) :
    (∀ v, (source, v) ∈ s.explored → v = none) ∧
    (∀ n p, (n, some p) ∈ s.explored → (alookup p s.explored).isSome) ∧
    (∀ n v, alookup n s.explored = some v →
      ∃ res, walkBack s.explored (s.explored.length + 1) (some n) [] = some res ∧
        res.head? = some source ∧ res.getLast? = some n) := by
  have hinv := inv_reachable hreach
  refine ⟨hinv.expSrc, ?_, ?_⟩
  · intro n p hm
    obtain ⟨_, t, hsuf, hl⟩ := ExpOK_mem_some hinv.expOK hm
    obtain ⟨v, hv⟩ := Option.isSome_iff_exists.1 hl
    have hsuf' : t <:+ s.explored := (List.suffix_cons (n, some p) t).trans hsuf
    rw [alookup_of_suffix hsuf' hinv.nodupExp hv]
    rfl
  · intro n v hv
    obtain ⟨tail, hwalk, hne, hhead, hlast, _⟩ :=
      walkBack_spec hinv.expOK hinv.nodupExp s.explored (List.suffix_refl _)
        (s.explored.length + 1) (Nat.lt_succ_self _) n v hv
    refine ⟨tail.reverse, by simpa using hwalk [], ?_, ?_⟩
    · rw [List.head?_reverse]; exact hlast
    · rw [List.getLast?_reverse]; exact hhead

theorem parent_chain_wellFounded_witness :
    ∃ res, walkBack cycS2.explored (cycS2.explored.length + 1) (some 1) [] = some res ∧
      res.head? = some 0 ∧ res.getLast? = some 1 :=
  (parent_chain_wellFounded Gcyc (fun _ _ => 0) "weight" 0 2 cycS2 cyc_reach_s2).2.2
    1 (some 0) (by decide)

/-- C3: during the expansion of a finalized node, an already-enqueued
neighbor is discarded unconditionally: every recorded (distance,
heuristic) pair survives the expansion unchanged, every pushed entry's
node was not yet enqueued, and across a whole loop iteration every
discovery-ledger entry is preserved, so the first recorded pair is
permanent for the call. -/
theorem discovery_first_wins (G : Graph) (hfun : Nat → Nat → Int) (weight : String)
    (target curnode : Nat) (dist : Int) (q : List QEntry) (c : Nat)
    (enq : List (Nat × Int × Int)) (q' : List QEntry) (c' : Nat)
    (enq' : List (Nat × Int × Int))
    (hE : expand G hfun weight target curnode dist q c enq = (q', c', enq')) :
    (∀ n v, alookup n enq = some v → alookup n enq' = some v) ∧
    (∃ new, q' = q ++ new ∧ ∀ e ∈ new, alookup e.node enq = none) ∧
    (∀ (s s' : SState), step G hfun weight target s = .next s' →
      ∀ n v, alookup n s.enqueued = some v → alookup n s'.enqueued = some v) := by
  obtain ⟨new, h1, _, h3, _, h5, _, _⟩ :=
    expand_spec G hfun weight target curnode dist q c enq q' c' enq' hE
  refine ⟨h3, ⟨new, h1, fun e he => (h5 e he).2.2.1⟩, ?_⟩
  intro s s' hstep n v hv
  unfold step at hstep
  cases hpop : popMin s.queue with
  | none => rw [hpop] at hstep; cases hstep
  | some er =>
    obtain ⟨e, rest⟩ := er
    rw [hpop] at hstep
    simp only [] at hstep
    by_cases htgt : e.node = target
    · rw [if_pos htgt] at hstep; cases hstep
    · rw [if_neg htgt] at hstep
      have hdefault : ∀ q2 c2 enq2,
          expand G hfun weight target e.node e.dist rest s.cnt s.enqueued = (q2, c2, enq2) →
          s' = ⟨q2, c2, enq2, (e.node, e.parent) :: s.explored⟩ →
          alookup n s'.enqueued = some v := by
        intro q2 c2 enq2 hE2 hs'
        obtain ⟨_, _, _, h3', _, _, _, _⟩ :=
          expand_spec G hfun weight target e.node e.dist rest s.cnt s.enqueued q2 c2 enq2 hE2
        rw [hs']
        exact h3' n v hv
      cases hexp : alookup e.node s.explored with
      | some w =>
        cases w with
        | none =>
          rw [hexp] at hstep
          cases hstep
          exact hv
        | some pp =>
          rw [hexp] at hstep
          rcases hE2 : expand G hfun weight target e.node e.dist rest s.cnt s.enqueued
            with ⟨q2, c2, enq2⟩
          simp only [hE2] at hstep
          cases hstep
          exact hdefault q2 c2 enq2 hE2 rfl
      | none =>
        rw [hexp] at hstep
        rcases hE2 : expand G hfun weight target e.node e.dist rest s.cnt s.enqueued
          with ⟨q2, c2, enq2⟩
        simp only [hE2] at hstep
        cases hstep
        exact hdefault q2 c2 enq2 hE2 rfl

theorem discovery_first_wins_witness :
    alookup 5 [(2, ((2 : Int), (0 : Int))), (0, (2, 0)), (5, (3, 1))] = some (3, 1) ∧
    alookup 1 cycS2.enqueued = some (1, 0) :=
  ⟨(discovery_first_wins Gcyc (fun _ _ => 0) "weight" 2 1 1 [] 4 [(5, (3, 1))]
      [⟨0, 4, 0, 2, some 1⟩, ⟨0, 5, 2, 2, some 1⟩] 6
      [(2, (2, 0)), (0, (2, 0)), (5, (3, 1))] (by decide)).1 5 (3, 1) rfl,
   (discovery_first_wins Gcyc (fun _ _ => 0) "weight" 2 1 1 [] 4 [(5, (3, 1))]
      [⟨0, 4, 0, 2, some 1⟩, ⟨0, 5, 2, 2, some 1⟩] 6
      [(2, (2, 0)), (0, (2, 0)), (5, (3, 1))] (by decide)).2.2 cycS1 cycS2
      (by decide) 1 (1, 0) rfl⟩

/-- C7: the initial frontier is the single entry (priority 0, sequence 0,
source, distance 0, no predecessor); the omitted heuristic behaves as the
constant-zero heuristic; an absent weight attribute counts as 1; and every
entry pushed by an expansion carries priority heuristic(neighbor, target)
and a fresh, strictly increasing sequence number. -/
theorem frontier_priority_spec (G : Graph) (hfun : Nat → Nat → Int)
    (source target curnode : Nat) (weight : String) (dist : Int) (q : List QEntry)
    (c : Nat) (enq : List (Nat × Int × Int)) (attrs : Attrs) (q' : List QEntry)
    (c' : Nat) (enq' : List (Nat × Int × Int))
    (hE : expand G hfun weight target curnode dist q c enq = (q', c', enq')) :
    initState source = ⟨[⟨0, 0, source, 0, none⟩], 1, [], []⟩ ∧
    greedy_path G source target none weight =
      greedy_path G source target (some fun _ _ => 0) weight ∧
    (List.lookup weight attrs = none → edgeWeight weight attrs = 1) ∧
    ∃ new : List QEntry, q' = q ++ new ∧
      (∀ e ∈ new, e.pri = hfun e.node target ∧ c ≤ e.cnt ∧ e.cnt < c') ∧
      c ≤ c' ∧
      List.Chain' (fun a b : QEntry => a.cnt < b.cnt) new := by
  refine ⟨rfl, rfl, ?_, ?_⟩
  · intro h
    unfold edgeWeight
    rw [h]
    rfl
  · obtain ⟨new, h1, h2, _, _, h5, _, h7⟩ :=
      expand_spec G hfun weight target curnode dist q c enq q' c' enq' hE
    refine ⟨new, h1, ?_, h2, h7⟩
    intro e he
    obtain ⟨_, hpri, _, _, _, hc1, hc2⟩ := h5 e he
    exact ⟨hpri, hc1, hc2⟩

theorem frontier_priority_spec_witness :
    greedy_path Gcyc 5 2 none "weight" = greedy_path Gcyc 5 2 (some fun _ _ => 0) "weight" ∧
    edgeWeight "weight" ([] : Attrs) = 1 ∧
    initState 5 = ⟨[⟨0, 0, 5, 0, none⟩], 1, [], []⟩ :=
  have h := frontier_priority_spec Gcyc (fun _ _ => 0) 5 2 1 "weight" 1 [] 2 [] []
    [⟨0, 2, 0, 2, some 1⟩, ⟨0, 3, 2, 2, some 1⟩] 4 [(2, (2, 0)), (0, (2, 0))] (by decide)
  ⟨h.2.1, h.2.2.1 rfl, h.1⟩
